import Mathlib

/-!
Verification of the crawler in `src/crawler.py`.

Strings are modelled as `List Char`.  The two algorithmic components are
embedded faithfully:

* `HTMLPatternCleaner` (lines 13-64), including the exact behaviour of
  Python's `difflib.SequenceMatcher(None, str1, str2).find_longest_match`
  used by `find_longest_common_substring` — in particular the *autojunk*
  heuristic: since `isjunk` is `None`, the junk set `bjunk` is empty, but
  when the second sequence has length at least 200, every character
  occurring more than `len(b) // 100 + 1` times in it is purged from the
  `b2j` index before the dynamic programme runs.

* `crawl_website` (lines 74-140) as a step function on an explicit crawl
  state.  HTTP transport and HTML parsing are external collaborators and
  are modelled by a function from URLs to an optional extracted page
  (`none` models a `requests.RequestException`, which also covers non-2xx
  statuses via `raise_for_status`); `urljoin` from the standard library is
  an abstract parameter.  A ghost field `fetchLog` records every URL on
  which a fetch was actually attempted (line 96), in order.
-/

namespace Crawler

/-- Autojunk purge of difflib's `SequenceMatcher.__chain_b` with `isjunk = None`:
a character of `b` is removed from the `b2j` index iff `len(b) >= 200` and it
occurs more than `len(b) // 100 + 1` times in `b`. -/
def purged (b : List Char) (c : Char) : Bool :=
  decide (200 ≤ b.length) && decide (b.length / 100 + 1 < b.count c)

/-- One row of the `j2len` dynamic programme in `find_longest_match`, for a
row character `ai` (that is, `a[i]`) present in the `b2j` index:
`newj2len[j] = j2len[j-1] + 1` when `b[j] == a[i]`, and `0` otherwise
(`j2len` entries absent from the dict read as `0`, and `newj2len` only
ever receives entries at matching `j`, so the dict is modelled as a dense
list with `0` at non-matching positions).  `prev` carries the previous
row's value at `j-1` (`0` for `j = 0`); `bs`/`old` walk the rest of `b`
and of the previous row in parallel. -/
def rowGo (ai : Char) : Nat → List Char → List Nat → List Nat
  | _, [], _ => []
  | prev, bj :: bs, old =>
    (if bj = ai then prev + 1 else 0) :: rowGo ai (old.headD 0) bs old.tail

/-- The best-match bookkeeping of the inner loop of `find_longest_match`:
scanning the freshly computed row (`ks`, starting at column `j`) for row
index `i`, a value `k` replaces the current best `(besti, bestj, bestsize)`
only when `k > bestsize`, giving the block `(i-k+1, j-k+1, k)`. -/
def bestScan (i : Nat) : Nat → List Nat → Nat × Nat × Nat → Nat × Nat × Nat
  | _, [], best => best
  | j, k :: ks, best =>
    if best.2.2 < k then bestScan i (j + 1) ks (i + 1 - k, j + 1 - k, k)
    else bestScan i (j + 1) ks best

/-- The main loop of `find_longest_match` over the rows of `a` (full ranges
`alo = blo = 0`, `ahi = len(a)`, `bhi = len(b)`, as called in
`find_longest_common_substring`).  A `j2len` dict is modelled as a dense
list of values (missing entries read as `0` via `getD`/`headD`); the empty
dict is the empty list.  When `a[i]` has no entry in `b2j` — it was purged
by autojunk or does not occur in `b` — the inner `for j in b2j.get(a[i])`
loop of the Python code does not run at all: `newj2len` stays the empty
dict and the best block is unchanged. -/
def dpLoop (b : List Char) : Nat → List Char → List Nat → Nat × Nat × Nat → Nat × Nat × Nat
  | _, [], _, best => best
  | i, ai :: as, j2len, best =>
    if purged b ai = true ∨ ai ∉ b then dpLoop b (i + 1) as [] best
    else dpLoop b (i + 1) as (rowGo ai 0 b j2len) (bestScan i 0 (rowGo ai 0 b j2len) best)

/-- Backward extension loop of `find_longest_match`:
while `besti > 0`, `bestj > 0`, `allowed(b[bestj-1])` and
`a[besti-1] == b[bestj-1]`, grow the block one character to the left.
Since `isjunk` is `None`, `bjunk` is empty, so the first (non-junk)
extension runs with `allowed = fun _ => true` and the third (junk)
extension with `allowed = fun _ => false`. -/
def extBack (a b : List Char) (allowed : Char → Bool) : Nat → Nat → Nat → Nat × Nat × Nat
  | bi + 1, bj + 1, sz =>
    if allowed (b.getD bj ' ') = true ∧ a.getD bi ' ' = b.getD bj ' ' then
      extBack a b allowed bi bj (sz + 1)
    else (bi + 1, bj + 1, sz)
  | bi, bj, sz => (bi, bj, sz)

/-- Forward extension loop of `find_longest_match`:
while `besti + bestsize < len(a)`, `bestj + bestsize < len(b)`,
`allowed(b[bestj+bestsize])` and `a[besti+bestsize] == b[bestj+bestsize]`,
grow the block one character to the right.  `fuel` only bounds the
recursion; every iteration needs `bi + sz < a.length` and increases `sz`,
so `fuel = a.length` (as used below) never runs out before the guard
fails. -/
def extFwd (a b : List Char) (allowed : Char → Bool) (bi bj : Nat) : Nat → Nat → Nat
  | 0, sz => sz
  | fuel + 1, sz =>
    if bi + sz < a.length ∧ bj + sz < b.length ∧
        allowed (b.getD (bj + sz) ' ') = true ∧ a.getD (bi + sz) ' ' = b.getD (bj + sz) ' ' then
      extFwd a b allowed bi bj fuel (sz + 1)
    else sz

/-- Python's `SequenceMatcher(None, a, b).find_longest_match(0, len(a), 0, len(b))`:
the dynamic programme over the (autojunk-purged) `b2j` index, followed by the
two non-junk extension loops and the two junk extension loops (the latter are
vacuous because `bjunk` is empty when `isjunk` is `None`). -/
def find_longest_match (a b : List Char) : Nat × Nat × Nat :=
  let dp := dpLoop b 0 a [] (0, 0, 0)
  let e1 := extBack a b (fun _ => true) dp.1 dp.2.1 dp.2.2
  let s2 := extFwd a b (fun _ => true) e1.1 e1.2.1 a.length e1.2.2
  let e3 := extBack a b (fun _ => false) e1.1 e1.2.1 s2
  let s4 := extFwd a b (fun _ => false) e3.1 e3.2.1 a.length e3.2.2
  (e3.1, e3.2.1, s4)

/-- Method `find_longest_common_substring` of `HTMLPatternCleaner`
(crawler.py lines 22-28): `str1[match.a : match.a + match.size]`. -/
def find_longest_common_substring (str1 str2 : List Char) : List Char :=
  (str1.drop (find_longest_match str1 str2).1).take (find_longest_match str1 str2).2.2

/-- The pattern store of `HTMLPatternCleaner` (crawler.py lines 13-20):
`common_patterns` stores `(-length, pattern)` tuples (comment on line 19). -/
structure HTMLPatternCleaner where
  common_patterns : List (Int × List Char)
  max_patterns : Nat
deriving DecidableEq

/-- The scan of crawler.py lines 44-49: fold over the stored patterns in
store order, keeping the first longest common substring found and replacing
it only by a strictly longer one. -/
def findLongestCommon (patterns : List (Int × List Char)) (cleaned : List Char) : List Char :=
  patterns.foldl
    (fun longest p =>
      if longest.length < (find_longest_common_substring p.2 cleaned).length then
        find_longest_common_substring p.2 cleaned
      else longest)
    []

/-- Left-to-right scan of Python `str.replace(old, "")` with a fuel
parameter bounding the recursion: at each position either the pattern is a
prefix and gets dropped, or the head character is kept.  Every step
consumes at least one character and one unit of fuel, so any
`fuel ≥ s.length` gives the same result (the `0, s` fallback is never hit
from `replaceAll` below). -/
def replaceAllGo (pat : List Char) : Nat → List Char → List Char
  | _, [] => []
  | 0, s => s
  | fuel + 1, c :: rest =>
    if pat ≠ [] ∧ pat.isPrefixOf (c :: rest) then
      replaceAllGo pat fuel ((c :: rest).drop pat.length)
    else c :: replaceAllGo pat fuel rest

/-- Python `cleaned_content.replace(longest_common, "")` (crawler.py line 56):
delete every non-overlapping occurrence of `pat`, scanning left to right.
An empty `pat` leaves the string unchanged, as in Python. -/
def replaceAll (pat : List Char) (s : List Char) : List Char :=
  replaceAllGo pat s.length s

/-- Fuelled scan counting the occurrences that `replaceAll pat` deletes
(same left-to-right non-overlapping traversal as `replaceAllGo`). -/
def countOccGo (pat : List Char) : Nat → List Char → Nat
  | _, [] => 0
  | 0, _ => 0
  | fuel + 1, c :: rest =>
    if pat ≠ [] ∧ pat.isPrefixOf (c :: rest) then
      1 + countOccGo pat fuel ((c :: rest).drop pat.length)
    else countOccGo pat fuel rest

/-- The number of occurrences that `replaceAll pat` deletes. -/
def countOcc (pat : List Char) (s : List Char) : Nat :=
  countOccGo pat s.length s

/-- Python `str.strip()` (crawler.py line 64): drop leading and trailing
whitespace.  (Python strips all Unicode whitespace; the exact whitespace
set is irrelevant to the claims, only that characters are dropped from the
two ends.) -/
def pyStrip (s : List Char) : List Char :=
  ((s.dropWhile Char.isWhitespace).reverse.dropWhile Char.isWhitespace).reverse

/-- The stripping loop of `clean_content` (crawler.py lines 41-62):
`while iterations < 5` is modelled by a fuel counter starting at 5.
Each iteration finds the best match over the stored patterns, stops if it
is shorter than 250 characters, otherwise removes every occurrence from the
content and, if there is capacity, appends `(-length, match)` to the store. -/
def cleanLoop : Nat → HTMLPatternCleaner → List Char → HTMLPatternCleaner × List Char
  | 0, self, cleaned => (self, cleaned)
  | fuel + 1, self, cleaned =>
    if (findLongestCommon self.common_patterns cleaned).length < 250 then (self, cleaned)
    else
      cleanLoop fuel
        (if self.common_patterns.length < self.max_patterns then
          { self with
            common_patterns := self.common_patterns ++
              [(-((findLongestCommon self.common_patterns cleaned).length : Int),
                findLongestCommon self.common_patterns cleaned)] }
        else self)
        (replaceAll (findLongestCommon self.common_patterns cleaned) cleaned)

/-- Method `clean_content` (crawler.py lines 30-64).  On an empty store the
whole content is appended as the sole pattern and returned unchanged (no
strip); otherwise up to five stripping iterations run and the result is
stripped of surrounding whitespace. -/
def clean_content (self : HTMLPatternCleaner) (content : List Char) :
    HTMLPatternCleaner × List Char :=
  if self.common_patterns = [] then
    ({ self with
        common_patterns := self.common_patterns ++ [(-(content.length : Int), content)] },
      content)
  else
    ((cleanLoop 5 self content).1, pyStrip (cleanLoop 5 self content).2)

/-- The module-level cleaner of crawler.py line 69:
`cleaner = HTMLPatternCleaner(max_patterns=5)`. -/
def initCleaner : HTMLPatternCleaner := { common_patterns := [], max_patterns := 5 }

/-- Successive `clean_content` calls threading the cleaner state (one call
per successfully fetched page). -/
def runClean (self : HTMLPatternCleaner) : List (List Char) → HTMLPatternCleaner
  | [] => self
  | c :: cs => runClean (clean_content self c).1 cs

/-- Fuelled whitespace collapsing; every step consumes at least one
character and one unit of fuel, so any `fuel ≥ s.length` computes the
full collapse. -/
def collapseWsGo : Nat → List Char → List Char
  | _, [] => []
  | 0, s => s
  | fuel + 1, c :: rest =>
    if c.isWhitespace then ' ' :: collapseWsGo fuel (rest.dropWhile Char.isWhitespace)
    else c :: collapseWsGo fuel rest

/-- Python `re.sub(r'\s+', ' ', s)` (crawler.py line 105): every maximal
run of whitespace characters is replaced by a single space. -/
def collapseWs (s : List Char) : List Char :=
  collapseWsGo s.length s

/-- What the external collaborators (requests + BeautifulSoup, crawler.py
lines 96-104 and 119-120) deliver for one successfully fetched URL:
the optional title element text (crawler.py line 101, `None` meaning no
title tag), the raw page text from `get_text()`, and the `href` values of
the anchor tags in document order. -/
structure Page where
  title : Option (List Char)
  text : List Char
  hrefs : List (List Char)
deriving DecidableEq

/-- One row appended to `results` (crawler.py lines 112-116). -/
structure PageRecord where
  url : List Char
  title : List Char
  content : List Char
deriving DecidableEq

/-- Fallback title of crawler.py line 101. -/
def noTitle : List Char := "No Title".toList

/-- The mutable state of the `while urls_to_crawl` loop of `crawl_website`
(crawler.py lines 83-85 and the module-level `cleaner`), plus the ghost
field `fetchLog` recording each URL on which `requests.get` was actually
invoked (line 96), in order. -/
structure CrawlState where
  visited : List (List Char)
  urls_to_crawl : List (List Char)
  results : List PageRecord
  cleaner : HTMLPatternCleaner
  fetchLog : List (List Char)
deriving DecidableEq

/-- The skip condition for a discovered link (crawler.py lines 127-131):
not starting with the base URL, or already visited, or containing a `#`
character, or containing some exclusion-list entry as a substring. -/
def admitSkip (base : List Char) (excl : List (List Char)) (vis : List (List Char))
    (nu : List Char) : Bool :=
  !base.isPrefixOf nu || vis.contains nu || nu.contains '#' ||
    excl.any (fun e => decide (e <:+: nu))

/-- One iteration of the `while urls_to_crawl` loop of `crawl_website`
(crawler.py lines 87-138).  `web u = none` models `requests.get` raising a
`RequestException` (which `raise_for_status` also raises on a bad status);
`uj` is `urllib.parse.urljoin`.  On the empty queue the state is returned
unchanged (the loop has terminated).  Note that `visited.add` (line 93)
happens before the fetch, so a failed URL stays visited. -/
def crawlStep (base : List Char) (excl : List (List Char))
    (uj : List Char → List Char → List Char)
    (web : List Char → Option Page) (s : CrawlState) : CrawlState :=
  match s.urls_to_crawl with
  | [] => s
  | current :: rest =>
    if current ∈ s.visited ∨ '#' ∈ current then
      { s with urls_to_crawl := rest }
    else
      match web current with
      | none =>
        { s with
          visited := s.visited ++ [current]
          urls_to_crawl := rest
          fetchLog := s.fetchLog ++ [current] }
      | some page =>
        { s with
          visited := s.visited ++ [current]
          fetchLog := s.fetchLog ++ [current]
          cleaner := (clean_content s.cleaner (collapseWs page.text)).1
          results := s.results ++
            [{ url := current
               title := match page.title with
                 | some t => pyStrip t
                 | none => noTitle
               content := (clean_content s.cleaner (collapseWs page.text)).2 }]
          urls_to_crawl := rest ++ (page.hrefs.map (uj base)).filter
            (fun nu => !admitSkip base excl (s.visited ++ [current]) nu) }

/-- Iterating `crawlStep`; every state reached by the crawl loop is
`crawlRun base excl uj web n (initState base cl)` for some `n`. -/
def crawlRun (base : List Char) (excl : List (List Char))
    (uj : List Char → List Char → List Char)
    (web : List Char → Option Page) : Nat → CrawlState → CrawlState
  | 0, s => s
  | n + 1, s => crawlRun base excl uj web n (crawlStep base excl uj web s)

/-- The state at the top of `crawl_website` (crawler.py lines 83-85):
empty visited set, the base URL as the sole queue entry, no results, the
module-level cleaner `cl`, and an empty fetch log. -/
def initState (base : List Char) (cl : HTMLPatternCleaner) : CrawlState :=
  { visited := [], urls_to_crawl := [base], results := [], cleaner := cl, fetchLog := [] }

/-! ### Helper lemmas about the cleaner -/

theorem cleanLoop_max_eq (fuel : Nat) (self : HTMLPatternCleaner) (cleaned : List Char) :
    (cleanLoop fuel self cleaned).1.max_patterns = self.max_patterns := by
  induction fuel generalizing self cleaned with
  | zero => rfl
  | succ fuel ih =>
    simp only [cleanLoop]
    split
    · rfl
    · rw [ih]; split <;> rfl

theorem cleanLoop_patterns_grow (fuel : Nat) (self : HTMLPatternCleaner)
    (cleaned : List Char) :
    self.common_patterns <+: (cleanLoop fuel self cleaned).1.common_patterns := by
  induction fuel generalizing self cleaned with
  | zero => exact List.prefix_rfl
  | succ fuel ih =>
    simp only [cleanLoop]
    split
    · exact List.prefix_rfl
    · split
      · have h2 := ih { self with
          common_patterns := self.common_patterns ++
            [(-((findLongestCommon self.common_patterns cleaned).length : Int),
              findLongestCommon self.common_patterns cleaned)] }
          (replaceAll (findLongestCommon self.common_patterns cleaned) cleaned)
        exact List.IsPrefix.trans (List.prefix_append _ _) h2
      · exact ih _ _

theorem cleanLoop_patterns_le (fuel : Nat) (self : HTMLPatternCleaner) (cleaned : List Char)
    (h : self.common_patterns.length ≤ self.max_patterns) :
    (cleanLoop fuel self cleaned).1.common_patterns.length ≤ self.max_patterns := by
  induction fuel generalizing self cleaned with
  | zero => exact h
  | succ fuel ih =>
    simp only [cleanLoop]
    split
    · exact h
    · split
      · rename_i hcap
        have := ih { self with
          common_patterns := self.common_patterns ++
            [(-((findLongestCommon self.common_patterns cleaned).length : Int),
              findLongestCommon self.common_patterns cleaned)] }
          (replaceAll (findLongestCommon self.common_patterns cleaned) cleaned)
          (by simp only [List.length_append, List.length_cons, List.length_nil]; omega)
        simpa using this
      · exact ih _ _ h

theorem clean_content_max_eq (self : HTMLPatternCleaner) (c : List Char) :
    (clean_content self c).1.max_patterns = self.max_patterns := by
  unfold clean_content
  split
  · rfl
  · exact cleanLoop_max_eq 5 self c

theorem clean_content_patterns_grow (self : HTMLPatternCleaner) (c : List Char) :
    self.common_patterns <+: (clean_content self c).1.common_patterns := by
  unfold clean_content
  split
  · exact List.prefix_append _ _
  · exact cleanLoop_patterns_grow 5 self c

theorem clean_content_patterns_le (self : HTMLPatternCleaner) (c : List Char)
    (h1 : 1 ≤ self.max_patterns) (h : self.common_patterns.length ≤ self.max_patterns) :
    (clean_content self c).1.common_patterns.length ≤ self.max_patterns := by
  unfold clean_content
  split
  · rename_i hemp
    simp [hemp, h1]
  · exact cleanLoop_patterns_le 5 self c h

theorem runClean_invariant (cs : List (List Char)) (self : HTMLPatternCleaner)
    (h1 : 1 ≤ self.max_patterns) (h : self.common_patterns.length ≤ self.max_patterns) :
    (runClean self cs).max_patterns = self.max_patterns ∧
      (runClean self cs).common_patterns.length ≤ self.max_patterns := by
  induction cs generalizing self with
  | nil => exact ⟨rfl, h⟩
  | cons c cs ih =>
    have hmax := clean_content_max_eq self c
    have := ih (clean_content self c).1 (hmax ▸ h1) (hmax ▸ clean_content_patterns_le self c h1 h)
    simp only [runClean]
    exact ⟨this.1.trans hmax, hmax ▸ this.2⟩

theorem replaceAllGo_length_le (pat : List Char) (fuel : Nat) (s : List Char) :
    (replaceAllGo pat fuel s).length ≤ s.length := by
  induction fuel generalizing s with
  | zero => cases s <;> simp [replaceAllGo]
  | succ fuel ih =>
    cases s with
    | nil => simp [replaceAllGo]
    | cons c rest =>
      rw [replaceAllGo]
      split
      · calc (replaceAllGo pat fuel ((c :: rest).drop pat.length)).length
            ≤ ((c :: rest).drop pat.length).length := ih _
          _ ≤ (c :: rest).length := by simp [List.length_drop]
      · simpa using Nat.succ_le_succ (ih rest)

theorem replaceAll_length_le (pat : List Char) (s : List Char) :
    (replaceAll pat s).length ≤ s.length :=
  replaceAllGo_length_le pat s.length s

theorem pyStrip_length_le (s : List Char) : (pyStrip s).length ≤ s.length := by
  unfold pyStrip
  calc (((s.dropWhile Char.isWhitespace).reverse.dropWhile Char.isWhitespace).reverse).length
      = ((s.dropWhile Char.isWhitespace).reverse.dropWhile Char.isWhitespace).length := by
        simp
    _ ≤ (s.dropWhile Char.isWhitespace).reverse.length := (List.dropWhile_sublist _).length_le
    _ = (s.dropWhile Char.isWhitespace).length := by simp
    _ ≤ s.length := (List.dropWhile_sublist _).length_le

theorem cleanLoop_length_le (fuel : Nat) (self : HTMLPatternCleaner) (cleaned : List Char) :
    ((cleanLoop fuel self cleaned).2).length ≤ cleaned.length := by
  induction fuel generalizing self cleaned with
  | zero => exact Nat.le_refl _
  | succ fuel ih =>
    simp only [cleanLoop]
    split
    · exact Nat.le_refl _
    · exact (ih _ _).trans (replaceAll_length_le _ _)

/-! ### Claim theorems -/

/-- C3 (amended): calling `clean_content` on an empty store returns the
input unchanged and leaves exactly one pattern in the store, whose text is
the input and whose first component is the *negation* of the input's
length. -/
theorem clean_content_seeds_store (self : HTMLPatternCleaner) (content : List Char)
    (h : self.common_patterns = []) :
    clean_content self content =
      ({ self with common_patterns := [(-(content.length : Int), content)] }, content) := by
  simp [clean_content, h]

/-- C3 witness: instantiating the seeding theorem at the module-level
cleaner and the content "a". -/
theorem clean_content_seeds_store_witness :
    initCleaner.common_patterns = [] ∧
      clean_content initCleaner ['a'] =
        ({ initCleaner with common_patterns := [(-((['a'].length : Nat) : Int), ['a'])] },
          ['a']) :=
  ⟨rfl, clean_content_seeds_store initCleaner ['a'] rfl⟩

/-- C3 counterexample: seeding on content "ab" stores the tuple
`(-2, "ab")`, not `(2, "ab")` — the length is recorded negated (crawler.py
line 37, matching the comment on line 19), so the claim's "recorded with
its length" fails as stated. -/
theorem clean_content_seed_negated_length :
    (clean_content initCleaner ['a', 'b']).1.common_patterns = [((-2 : Int), ['a', 'b'])] ∧
      (clean_content initCleaner ['a', 'b']).1.common_patterns ≠
        [(((['a', 'b'].length : Nat) : Int), ['a', 'b'])] := by
  constructor
  · decide
  · decide

/-- C7: the pattern count never decreases across a `clean_content` call;
it stays within `max_patterns` whenever it started within a positive
`max_patterns`; and along every sequence of calls starting from the
module-level cleaner (`max_patterns = 5`) the store holds at most 5
patterns. -/
theorem patternStore_bounds :
    (∀ (self : HTMLPatternCleaner) (c : List Char),
        self.common_patterns.length ≤ (clean_content self c).1.common_patterns.length) ∧
      (∀ (self : HTMLPatternCleaner) (c : List Char),
        1 ≤ self.max_patterns → self.common_patterns.length ≤ self.max_patterns →
          (clean_content self c).1.common_patterns.length ≤ self.max_patterns) ∧
      ∀ cs : List (List Char), (runClean initCleaner cs).common_patterns.length ≤ 5 := by
  refine ⟨fun self c => (clean_content_patterns_grow self c).length_le,
    fun self c h1 h => clean_content_patterns_le self c h1 h, fun cs => ?_⟩
  have := runClean_invariant cs initCleaner (by simp [initCleaner]) (by simp [initCleaner])
  simpa [initCleaner] using this.2

/-- C7 witness: the bounds instantiated on a one-pattern store of capacity
one and on a concrete two-page run. -/
theorem patternStore_bounds_witness :
    (HTMLPatternCleaner.mk [((-1 : Int), ['a'])] 1).common_patterns.length ≤
        (clean_content (HTMLPatternCleaner.mk [((-1 : Int), ['a'])] 1) ['b']).1.common_patterns.length ∧
      (clean_content (HTMLPatternCleaner.mk [((-1 : Int), ['a'])] 1) ['b']).1.common_patterns.length ≤
        (HTMLPatternCleaner.mk [((-1 : Int), ['a'])] 1).max_patterns ∧
      (runClean initCleaner [['a'], ['b', 'c']]).common_patterns.length ≤ 5 :=
  ⟨patternStore_bounds.1 _ _,
    patternStore_bounds.2.1 (HTMLPatternCleaner.mk [((-1 : Int), ['a'])] 1) ['b']
      (by decide) (by decide),
    patternStore_bounds.2.2 [['a'], ['b', 'c']]⟩

/-- C10: on a non-empty pattern store, `clean_content` never lengthens the
content: the cleaning pass only deletes occurrences of matched substrings
and trims surrounding whitespace. -/
theorem clean_content_length_le (self : HTMLPatternCleaner) (c : List Char)
    (h : self.common_patterns ≠ []) :
    ((clean_content self c).2).length ≤ c.length := by
  unfold clean_content
  rw [if_neg h]
  exact (pyStrip_length_le _).trans (cleanLoop_length_le 5 self c)

/-- C10 witness: the length bound instantiated on a concrete one-pattern
store and the content " hi ". -/
theorem clean_content_length_le_witness :
    ((clean_content (HTMLPatternCleaner.mk [((-1 : Int), ['a'])] 5)
        [' ', 'h', 'i', ' ']).2).length ≤ [' ', 'h', 'i', ' '].length :=
  clean_content_length_le (HTMLPatternCleaner.mk [((-1 : Int), ['a'])] 5)
    [' ', 'h', 'i', ' '] (by decide)

/-! ### Occurrence counting for the replacement step -/

theorem replaceAllGo_add_countOccGo (pat : List Char) (fuel : Nat) (s : List Char) :
    (replaceAllGo pat fuel s).length + pat.length * countOccGo pat fuel s = s.length := by
  induction fuel generalizing s with
  | zero => cases s <;> simp [replaceAllGo, countOccGo]
  | succ fuel ih =>
    cases s with
    | nil => simp [replaceAllGo, countOccGo]
    | cons c rest =>
      rw [replaceAllGo, countOccGo]
      split
      · rename_i hif
        have hple : pat.length ≤ (c :: rest).length :=
          List.IsPrefix.length_le (List.isPrefixOf_iff_prefix.mp hif.2)
        have hdrop : ((c :: rest).drop pat.length).length = (c :: rest).length - pat.length := by
          simp [List.length_drop]
        have := ih ((c :: rest).drop pat.length)
        rw [Nat.mul_add, Nat.mul_one]
        omega
      · have := ih rest
        simp only [List.length_cons]
        omega

theorem replaceAll_add_countOcc (pat : List Char) (s : List Char) :
    (replaceAll pat s).length + pat.length * countOcc pat s = s.length :=
  replaceAllGo_add_countOccGo pat s.length s

theorem countOccGo_eq_zero_iff (pat : List Char) (hp : pat ≠ []) (fuel : Nat) (s : List Char)
    (hfuel : s.length ≤ fuel) : (countOccGo pat fuel s = 0 ↔ ¬ pat <:+: s) := by
  induction fuel generalizing s with
  | zero =>
    have : s = [] := List.length_eq_zero.mp (Nat.le_zero.mp hfuel)
    subst this
    simp [countOccGo, List.infix_nil, hp]
  | succ fuel ih =>
    cases s with
    | nil => simp [countOccGo, List.infix_nil, hp]
    | cons c rest =>
      rw [countOccGo]
      split
      · rename_i hif
        have : pat <:+: c :: rest :=
          List.IsPrefix.isInfix (List.isPrefixOf_iff_prefix.mp hif.2)
        simp [this]
      · rename_i hif
        have hnp : ¬ pat <+: c :: rest := by
          intro hpre
          exact hif ⟨hp, List.isPrefixOf_iff_prefix.mpr hpre⟩
        have hlen : rest.length ≤ fuel := by
          simp only [List.length_cons] at hfuel
          omega
        rw [ih rest hlen, List.infix_cons_iff]
        simp [hnp]

theorem countOcc_eq_zero_iff (pat : List Char) (s : List Char) (hp : pat ≠ []) :
    countOcc pat s = 0 ↔ ¬ pat <:+: s :=
  countOccGo_eq_zero_iff pat hp s.length s (Nat.le_refl _)

/-- C4: a stripping iteration with best match shorter than 250 stops the
loop with the content untouched; otherwise the iteration continues on the
content with every left-to-right occurrence of the match deleted (the
deleted occurrence count satisfies the length equation, and it is zero
exactly when the match does not occur at all, so deletion is global rather
than first-occurrence-only), appending the match to the store exactly when
there is spare capacity; and on a non-empty store `clean_content` is five
such iterations followed by a whitespace trim. -/
theorem cleanLoop_step (fuel : Nat) (self : HTMLPatternCleaner) (cleaned : List Char) :
    ((findLongestCommon self.common_patterns cleaned).length < 250 →
        cleanLoop (fuel + 1) self cleaned = (self, cleaned)) ∧
      (250 ≤ (findLongestCommon self.common_patterns cleaned).length →
        cleanLoop (fuel + 1) self cleaned =
            cleanLoop fuel
              (if self.common_patterns.length < self.max_patterns then
                { self with
                  common_patterns := self.common_patterns ++
                    [(-((findLongestCommon self.common_patterns cleaned).length : Int),
                      findLongestCommon self.common_patterns cleaned)] }
              else self)
              (replaceAll (findLongestCommon self.common_patterns cleaned) cleaned) ∧
          (replaceAll (findLongestCommon self.common_patterns cleaned) cleaned).length +
              (findLongestCommon self.common_patterns cleaned).length *
                countOcc (findLongestCommon self.common_patterns cleaned) cleaned =
            cleaned.length ∧
          (countOcc (findLongestCommon self.common_patterns cleaned) cleaned = 0 ↔
            ¬ findLongestCommon self.common_patterns cleaned <:+: cleaned)) ∧
      (self.common_patterns ≠ [] →
        clean_content self cleaned =
          ((cleanLoop 5 self cleaned).1, pyStrip (cleanLoop 5 self cleaned).2)) := by
  refine ⟨fun h => ?_, fun h => ⟨?_, replaceAll_add_countOcc _ _, ?_⟩, fun h => ?_⟩
  · rw [cleanLoop, if_pos h]
  · rw [cleanLoop, if_neg (by omega)]
  · exact countOcc_eq_zero_iff _ _ (by intro hnil; rw [hnil] at h; simp at h)
  · rw [clean_content, if_neg h]

set_option maxRecDepth 1000000 in
set_option maxHeartbeats 4000000 in
/-- C4 witness: one 250-character iteration on a concrete store.  The
single stored pattern "x"*250 matches the content "x"*250 in full, the
match (250 characters long) is removed globally (one occurrence), and the
store, having spare capacity, gains the match. -/
theorem cleanLoop_step_witness :
    cleanLoop 5 (HTMLPatternCleaner.mk [((-250 : Int), List.replicate 250 'x')] 5)
        (List.replicate 250 'x') =
      cleanLoop 4
        { HTMLPatternCleaner.mk [((-250 : Int), List.replicate 250 'x')] 5 with
          common_patterns :=
            [((-250 : Int), List.replicate 250 'x')] ++
              [(-((findLongestCommon [((-250 : Int), List.replicate 250 'x')]
                    (List.replicate 250 'x')).length : Int),
                findLongestCommon [((-250 : Int), List.replicate 250 'x')]
                  (List.replicate 250 'x'))] }
        (replaceAll
          (findLongestCommon [((-250 : Int), List.replicate 250 'x')]
            (List.replicate 250 'x'))
          (List.replicate 250 'x')) ∧
      countOcc (findLongestCommon [((-250 : Int), List.replicate 250 'x')]
          (List.replicate 250 'x')) (List.replicate 250 'x') = 1 := by
  constructor
  · have h := (cleanLoop_step 4
      (HTMLPatternCleaner.mk [((-250 : Int), List.replicate 250 'x')] 5)
      (List.replicate 250 'x')).2.1 (by decide)
    rw [h.1, if_pos (by decide)]
  · decide

/-! ### The best-match fold and its tie-breaking -/

theorem foldLongest_spec (ms : List (List Char)) (acc : List Char) :
    (acc.length ≤ (ms.foldl (fun longest m =>
          if longest.length < m.length then m else longest) acc).length ∧
        ∀ m ∈ ms, m.length ≤ (ms.foldl (fun longest m =>
          if longest.length < m.length then m else longest) acc).length) ∧
      ((ms.foldl (fun longest m => if longest.length < m.length then m else longest) acc)
          = acc ∨
        ∃ i, ∃ h : i < ms.length,
          (ms.foldl (fun longest m => if longest.length < m.length then m else longest) acc)
              = ms.get ⟨i, h⟩ ∧
            acc.length < (ms.get ⟨i, h⟩).length ∧
            ∀ j, (hj : j < ms.length) → j < i →
              (ms.get ⟨j, hj⟩).length < (ms.get ⟨i, h⟩).length) := by
  induction ms generalizing acc with
  | nil => exact ⟨⟨Nat.le_refl _, by simp⟩, Or.inl rfl⟩
  | cons m ms ih =>
    simp only [List.foldl_cons]
    by_cases hcase : acc.length < m.length
    · rw [if_pos hcase]
      obtain ⟨⟨hacc, hall⟩, hloc⟩ := ih m
      refine ⟨⟨Nat.le_of_lt (Nat.lt_of_lt_of_le hcase hacc), ?_⟩, ?_⟩
      · intro m' hm'
        rcases List.mem_cons.mp hm' with h | h
        · exact h ▸ hacc
        · exact hall m' h
      · rcases hloc with heq | ⟨i, hi, heq, hgt, hprev⟩
        · refine Or.inr ⟨0, by simp, by simpa using heq, by simpa using hcase, ?_⟩
          intro j hj hj0
          omega
        · have hi1 : i + 1 < (m :: ms).length := by simpa using hi
          have hget : (m :: ms).get ⟨i + 1, hi1⟩ = ms.get ⟨i, hi⟩ := rfl
          refine Or.inr ⟨i + 1, hi1, by simpa [hget] using heq, ?_, ?_⟩
          · rw [hget]
            exact Nat.lt_trans hcase hgt
          · intro j hj hji
            cases j with
            | zero =>
              show m.length < ((m :: ms).get ⟨i + 1, hi1⟩).length
              rw [hget]
              exact hgt
            | succ j' =>
              have hj' : j' < ms.length := by simpa using hj
              have := hprev j' hj' (by omega)
              show (ms.get ⟨j', hj'⟩).length < ((m :: ms).get ⟨i + 1, hi1⟩).length
              rw [hget]
              exact this
    · rw [if_neg hcase]
      obtain ⟨⟨hacc, hall⟩, hloc⟩ := ih acc
      refine ⟨⟨hacc, ?_⟩, ?_⟩
      · intro m' hm'
        rcases List.mem_cons.mp hm' with h | h
        · subst h
          exact Nat.le_trans (Nat.le_of_not_lt hcase) hacc
        · exact hall m' h
      · rcases hloc with heq | ⟨i, hi, heq, hgt, hprev⟩
        · exact Or.inl heq
        · have hi1 : i + 1 < (m :: ms).length := by simpa using hi
          have hget : (m :: ms).get ⟨i + 1, hi1⟩ = ms.get ⟨i, hi⟩ := rfl
          refine Or.inr ⟨i + 1, hi1, by simpa [hget] using heq, by rw [hget]; exact hgt, ?_⟩
          intro j hj hji
          cases j with
          | zero =>
            show m.length < ((m :: ms).get ⟨i + 1, hi1⟩).length
            rw [hget]
            exact Nat.lt_of_le_of_lt (Nat.le_of_not_lt hcase) hgt
          | succ j' =>
            have hj' : j' < ms.length := by simpa using hj
            have := hprev j' hj' (by omega)
            show (ms.get ⟨j', hj'⟩).length < ((m :: ms).get ⟨i + 1, hi1⟩).length
            rw [hget]
            exact this

theorem findLongestCommon_eq_foldl (patterns : List (Int × List Char)) (cleaned : List Char) :
    findLongestCommon patterns cleaned =
      (patterns.map (fun p => find_longest_common_substring p.2 cleaned)).foldl
        (fun longest m => if longest.length < m.length then m else longest) [] := by
  rw [findLongestCommon, List.foldl_map]

/-- C5: within one stripping iteration, the best match is tracked over the
patterns in store order and is replaced only by a strictly longer match:
the result is at least as long as every pattern's match, and unless it is
the empty initial value it is the match of some pattern all of whose
predecessors in store order produced strictly shorter matches (so an
equal-length later match never displaces an earlier one, while a strictly
longer later match does). -/
theorem findLongestCommon_spec (patterns : List (Int × List Char)) (cleaned : List Char) :
    (∀ p ∈ patterns,
        (find_longest_common_substring p.2 cleaned).length ≤
          (findLongestCommon patterns cleaned).length) ∧
      (findLongestCommon patterns cleaned = [] ∨
        ∃ i, ∃ h : i < patterns.length,
          findLongestCommon patterns cleaned =
              find_longest_common_substring (patterns.get ⟨i, h⟩).2 cleaned ∧
            ∀ j, (hj : j < patterns.length) → j < i →
              (find_longest_common_substring (patterns.get ⟨j, hj⟩).2 cleaned).length <
                (find_longest_common_substring (patterns.get ⟨i, h⟩).2 cleaned).length) := by
  have hspec := foldLongest_spec
    (patterns.map (fun p => find_longest_common_substring p.2 cleaned)) []
  rw [← findLongestCommon_eq_foldl] at hspec
  obtain ⟨⟨-, hall⟩, hloc⟩ := hspec
  constructor
  · intro p hp
    exact hall _ (List.mem_map_of_mem _ hp)
  · rcases hloc with heq | ⟨i, hi, heq, -, hprev⟩
    · exact Or.inl heq
    · have hi' : i < patterns.length := by simpa using hi
      refine Or.inr ⟨i, hi', ?_, ?_⟩
      · rw [heq]
        simp [List.get_map]
      · intro j hj hji
        have := hprev j (by simpa using hj) hji
        simpa [List.get_map] using this

set_option maxRecDepth 1000000 in
set_option maxHeartbeats 4000000 in
/-- C5 witness: the spec's own scenario — the first stored pattern yields
a 250-character match, the second (later in store order) a 251-character
match, and the strictly longer later match wins. -/
theorem findLongestCommon_spec_witness :
    findLongestCommon
        [((-250 : Int), List.replicate 250 'x'), ((-251 : Int), List.replicate 251 'x')]
        (List.replicate 251 'x') = List.replicate 251 'x' ∧
      (find_longest_common_substring (List.replicate 250 'x')
          (List.replicate 251 'x')).length = 250 ∧
      (find_longest_common_substring (List.replicate 250 'x')
            (List.replicate 251 'x')).length ≤
        (findLongestCommon
            [((-250 : Int), List.replicate 250 'x'), ((-251 : Int), List.replicate 251 'x')]
            (List.replicate 251 'x')).length :=
  ⟨by decide, by decide,
    (findLongestCommon_spec
        [((-250 : Int), List.replicate 250 'x'), ((-251 : Int), List.replicate 251 'x')]
        (List.replicate 251 'x')).1
      ((-250 : Int), List.replicate 250 'x') (by decide)⟩

/-! ### Append-only store -/

theorem cleanLoop_new_entries (fuel : Nat) (self : HTMLPatternCleaner) (cleaned : List Char)
    (p : Int × List Char) (hp : p ∈ (cleanLoop fuel self cleaned).1.common_patterns) :
    p ∈ self.common_patterns ∨ p.1 = -(p.2.length : Int) := by
  induction fuel generalizing self cleaned with
  | zero => exact Or.inl hp
  | succ fuel ih =>
    rw [cleanLoop] at hp
    split at hp
    · exact Or.inl hp
    · split at hp
      · rcases ih _ _ hp with hmem | hshape
        · rcases List.mem_append.mp hmem with hold | hnew
          · exact Or.inl hold
          · right
            rcases List.mem_singleton.mp hnew with rfl
            rfl
        · exact Or.inr hshape
      · exact ih _ _ hp

/-- C8 (amended): the store is append-only and insertion-ordered — after
every `clean_content` call the previous patterns remain, in order, a
prefix of the new store, and every entry not previously present records
the pair `(-length, text)`.  No ordering by descending text length is
maintained. -/
theorem clean_content_append_only (self : HTMLPatternCleaner) (c : List Char) :
    self.common_patterns <+: (clean_content self c).1.common_patterns ∧
      ∀ p ∈ (clean_content self c).1.common_patterns,
        p ∈ self.common_patterns ∨ p.1 = -(p.2.length : Int) := by
  refine ⟨clean_content_patterns_grow self c, ?_⟩
  intro p hp
  rw [clean_content] at hp
  split at hp
  · rename_i hemp
    simp only [hemp, List.nil_append] at hp
    rcases List.mem_singleton.mp hp with rfl
    exact Or.inr rfl
  · exact cleanLoop_new_entries 5 self c p hp

/-- C8 amended-claim witness: the append-only facts instantiated on a
concrete one-pattern store. -/
theorem clean_content_append_only_witness :
    (HTMLPatternCleaner.mk [((-1 : Int), ['a'])] 5).common_patterns <+:
        (clean_content (HTMLPatternCleaner.mk [((-1 : Int), ['a'])] 5) ['b']).1.common_patterns ∧
      (((-1 : Int), ['a']) ∈ (HTMLPatternCleaner.mk [((-1 : Int), ['a'])] 5).common_patterns ∨
        ((-1 : Int), (['a'] : List Char)).1 = -(((['a'] : List Char).length : Nat) : Int)) :=
  ⟨(clean_content_append_only (HTMLPatternCleaner.mk [((-1 : Int), ['a'])] 5) ['b']).1,
    (clean_content_append_only (HTMLPatternCleaner.mk [((-1 : Int), ['a'])] 5) ['b']).2
      ((-1 : Int), ['a'])
      (by decide)⟩

set_option maxRecDepth 1000000 in
set_option maxHeartbeats 6000000 in
/-- C8 counterexample: after cleaning the three page texts "x"*251,
"x"*250, "x"*251 in sequence from the fresh cleaner, the store's pattern
lengths are [251, 250, 251] — a 251-character pattern sits after a
250-character one, so the store is not ordered by descending text
length. -/
theorem store_not_sorted_desc :
    ((runClean initCleaner
          [List.replicate 251 'x', List.replicate 250 'x', List.replicate 251 'x']).common_patterns.map
        (fun p => p.2.length)) = [251, 250, 251] ∧
      ¬ List.Pairwise (fun p q : Int × List Char => q.2.length ≤ p.2.length)
        (runClean initCleaner
          [List.replicate 251 'x', List.replicate 250 'x', List.replicate 251 'x']).common_patterns := by
  constructor
  · decide
  · decide

/-! ### The crawl loop: admission, at-most-once fetching, failure handling -/

theorem crawlStep_discard (base : List Char) (excl : List (List Char))
    (uj : List Char → List Char → List Char) (web : List Char → Option Page)
    (t : CrawlState) (u : List Char) (tail : List (List Char))
    (hq : t.urls_to_crawl = u :: tail) (hcond : u ∈ t.visited ∨ '#' ∈ u) :
    crawlStep base excl uj web t = { t with urls_to_crawl := tail } := by
  obtain ⟨vis, urls, res, cl, log⟩ := t
  simp only at hq
  subst hq
  simp only [crawlStep]
  rw [if_pos hcond]

theorem crawlStep_fetch_fields (base : List Char) (excl : List (List Char))
    (uj : List Char → List Char → List Char) (web : List Char → Option Page)
    (s : CrawlState) (current : List Char) (rest : List (List Char))
    (hq : s.urls_to_crawl = current :: rest)
    (hfresh : ¬(current ∈ s.visited ∨ '#' ∈ current)) :
    (crawlStep base excl uj web s).visited = s.visited ++ [current] ∧
      (crawlStep base excl uj web s).fetchLog = s.fetchLog ++ [current] := by
  obtain ⟨vis, urls, res, cl, log⟩ := s
  simp only at hq
  subst hq
  simp only [crawlStep]
  rw [if_neg hfresh]
  cases web current <;> simp

theorem crawlStep_fail (base : List Char) (excl : List (List Char))
    (uj : List Char → List Char → List Char) (web : List Char → Option Page)
    (s : CrawlState) (current : List Char) (rest : List (List Char))
    (hq : s.urls_to_crawl = current :: rest)
    (hfresh : ¬(current ∈ s.visited ∨ '#' ∈ current))
    (hweb : web current = none) :
    crawlStep base excl uj web s =
      { s with
        visited := s.visited ++ [current]
        urls_to_crawl := rest
        fetchLog := s.fetchLog ++ [current] } := by
  obtain ⟨vis, urls, res, cl, log⟩ := s
  simp only at hq
  subst hq
  simp only [crawlStep]
  rw [if_neg hfresh, hweb]

theorem crawlStep_success (base : List Char) (excl : List (List Char))
    (uj : List Char → List Char → List Char) (web : List Char → Option Page)
    (s : CrawlState) (current : List Char) (rest : List (List Char)) (page : Page)
    (hq : s.urls_to_crawl = current :: rest)
    (hfresh : ¬(current ∈ s.visited ∨ '#' ∈ current))
    (hweb : web current = some page) :
    crawlStep base excl uj web s =
      { s with
        visited := s.visited ++ [current]
        fetchLog := s.fetchLog ++ [current]
        cleaner := (clean_content s.cleaner (collapseWs page.text)).1
        results := s.results ++
          [{ url := current
             title := match page.title with
               | some t => pyStrip t
               | none => noTitle
             content := (clean_content s.cleaner (collapseWs page.text)).2 }]
        urls_to_crawl := rest ++ (page.hrefs.map (uj base)).filter
          (fun nu => !admitSkip base excl (s.visited ++ [current]) nu) } := by
  obtain ⟨vis, urls, res, cl, log⟩ := s
  simp only at hq
  subst hq
  simp only [crawlStep]
  rw [if_neg hfresh, hweb]

theorem admitSkip_false_iff (base : List Char) (excl : List (List Char))
    (vis : List (List Char)) (cand : List Char) :
    (!admitSkip base excl vis cand) = true ↔
      (base <+: cand ∧ cand ∉ vis ∧ ¬('#' ∈ cand) ∧ ∀ e ∈ excl, ¬ e <:+: cand) := by
  simp only [admitSkip, List.contains]
  simp [List.isPrefixOf_iff_prefix, List.elem_iff, not_or]
  tauto

/-- C2: on a successfully fetched page, the links (resolved against the
base URL) are appended to the queue filtered by the admission test, and a
candidate passes the admission test if and only if it starts with the base
URL, is not in the visited set (which at that point includes the current
URL), contains no `#` character, and contains no exclusion-list entry as a
substring. -/
theorem crawl_admission (base : List Char) (excl : List (List Char))
    (uj : List Char → List Char → List Char) (web : List Char → Option Page)
    (s : CrawlState) (current : List Char) (rest : List (List Char)) (page : Page)
    (hq : s.urls_to_crawl = current :: rest)
    (hfresh : ¬(current ∈ s.visited ∨ '#' ∈ current))
    (hweb : web current = some page) :
    (crawlStep base excl uj web s).urls_to_crawl =
        rest ++ (page.hrefs.map (uj base)).filter
          (fun nu => !admitSkip base excl (s.visited ++ [current]) nu) ∧
      ∀ cand, (!admitSkip base excl (s.visited ++ [current]) cand) = true ↔
        (base <+: cand ∧ cand ∉ s.visited ++ [current] ∧ ¬('#' ∈ cand) ∧
          ∀ e ∈ excl, ¬ e <:+: cand) := by
  constructor
  · rw [crawlStep_success base excl uj web s current rest page hq hfresh hweb]
  · exact fun cand => admitSkip_false_iff base excl (s.visited ++ [current]) cand

/-! Concrete world used by the crawl witnesses. -/

def wBase : List Char := ['h', '/']

def wU2 : List Char := ['h', '/', 'a']

def wU3 : List Char := ['h', '/', '#']

def wU9 : List Char := ['h', '/', 'q']

def wExcl : List (List Char) := [['z']]

def wUj : List Char → List Char → List Char := fun _ h => h

def wPage1 : Page := { title := some [' ', 'T'], text := ['h', 'i'], hrefs := [wU2, wU3, ['x'], wU2] }

def wPage2 : Page := { title := none, text := [], hrefs := [] }

def wWeb : List Char → Option Page := fun u =>
  if u = wBase then some wPage1 else if u = wU2 then some wPage2 else none

/-- C2 witness: on the concrete start state, the fetched page's four links
(an in-scope link, a fragment link, an off-base link, and the in-scope
link repeated) are filtered down to the in-scope link twice, and the
admission test instantiated at that link holds. -/
theorem crawl_admission_witness :
    (crawlStep wBase wExcl wUj wWeb (initState wBase initCleaner)).urls_to_crawl =
        [wU2, wU2] ∧
      ((!admitSkip wBase wExcl ([] ++ [wBase]) wU2) = true ↔
        (wBase <+: wU2 ∧ wU2 ∉ [] ++ [wBase] ∧ ¬('#' ∈ wU2) ∧
          ∀ e ∈ wExcl, ¬ e <:+: wU2)) := by
  have h := crawl_admission wBase wExcl wUj wWeb (initState wBase initCleaner)
    wBase [] wPage1 rfl (by decide) (by decide)
  refine ⟨?_, h.2 wU2⟩
  rw [h.1]
  decide

/-! The fetch log invariant: every fetched URL was fresh at fetch time. -/

def FetchInv (s : CrawlState) : Prop :=
  s.fetchLog.Nodup ∧ (∀ u ∈ s.fetchLog, ¬('#' ∈ u)) ∧ ∀ u ∈ s.fetchLog, u ∈ s.visited

theorem crawlStep_fetchInv (base : List Char) (excl : List (List Char))
    (uj : List Char → List Char → List Char) (web : List Char → Option Page)
    (s : CrawlState) (h : FetchInv s) : FetchInv (crawlStep base excl uj web s) := by
  obtain ⟨hnodup, hhash, hvis⟩ := h
  match hq : s.urls_to_crawl with
  | [] =>
    obtain ⟨vis, urls, res, cl, log⟩ := s
    simp only at hq
    subst hq
    exact ⟨hnodup, hhash, hvis⟩
  | current :: rest =>
    by_cases hcond : current ∈ s.visited ∨ '#' ∈ current
    · rw [crawlStep_discard base excl uj web s current rest hq hcond]
      exact ⟨hnodup, hhash, hvis⟩
    · have hfields := crawlStep_fetch_fields base excl uj web s current rest hq hcond
      push_neg at hcond
      have hlogNodup : (s.fetchLog ++ [current]).Nodup := by
        rw [List.nodup_append]
        refine ⟨hnodup, List.nodup_singleton current, ?_⟩
        intro u hu hmem
        rcases List.mem_singleton.mp hmem with rfl
        exact hcond.1 (hvis u hu)
      have hlogHash : ∀ u ∈ s.fetchLog ++ [current], ¬('#' ∈ u) := by
        intro u hu
        rcases List.mem_append.mp hu with hu | hu
        · exact hhash u hu
        · rcases List.mem_singleton.mp hu with rfl
          exact hcond.2
      have hlogVis : ∀ u ∈ s.fetchLog ++ [current], u ∈ s.visited ++ [current] := by
        intro u hu
        rcases List.mem_append.mp hu with hu | hu
        · exact List.mem_append.mpr (Or.inl (hvis u hu))
        · exact List.mem_append.mpr (Or.inr hu)
      refine ⟨?_, ?_, ?_⟩
      · rw [hfields.2]
        exact hlogNodup
      · rw [hfields.2]
        exact hlogHash
      · rw [hfields.2, hfields.1]
        exact hlogVis

theorem crawlRun_fetchInv (base : List Char) (excl : List (List Char))
    (uj : List Char → List Char → List Char) (web : List Char → Option Page)
    (n : Nat) (s : CrawlState) (h : FetchInv s) :
    FetchInv (crawlRun base excl uj web n s) := by
  induction n generalizing s with
  | zero => exact h
  | succ n ih => exact ih _ (crawlStep_fetchInv base excl uj web s h)

/-- C6: along any number of crawl-loop iterations from the initial state,
the list of URLs actually fetched contains no duplicates (each URL is
fetched at most once) and no URL containing `#`; and a popped URL that is
already visited or contains `#` is discarded, changing nothing but the
queue (in particular no fetch is recorded for it). -/
theorem crawl_fetch_once (base : List Char) (excl : List (List Char))
    (uj : List Char → List Char → List Char) (web : List Char → Option Page)
    (cl : HTMLPatternCleaner) (n : Nat) :
    ((crawlRun base excl uj web n (initState base cl)).fetchLog.Nodup ∧
        ∀ u ∈ (crawlRun base excl uj web n (initState base cl)).fetchLog, ¬('#' ∈ u)) ∧
      ∀ (t : CrawlState) (u : List Char) (tail : List (List Char)),
        t.urls_to_crawl = u :: tail → u ∈ t.visited ∨ '#' ∈ u →
          crawlStep base excl uj web t = { t with urls_to_crawl := tail } := by
  have hinit : FetchInv (initState base cl) := by
    refine ⟨List.nodup_nil, ?_, ?_⟩ <;> intro u hu <;> simp [initState] at hu
  have h := crawlRun_fetchInv base excl uj web n (initState base cl) hinit
  exact ⟨⟨h.1, h.2.1⟩, fun t u tail hq hcond => crawlStep_discard base excl uj web t u tail hq hcond⟩

/-- C6 witness: five iterations on the concrete world fetch exactly the
base page and the one admitted link, in that order — no duplicate fetch
despite the duplicate queue entry, and no fragment URL — and a concrete
already-visited queue head is discarded by a pure queue pop. -/
theorem crawl_fetch_once_witness :
    (crawlRun wBase wExcl wUj wWeb 5 (initState wBase initCleaner)).fetchLog.Nodup ∧
      (crawlRun wBase wExcl wUj wWeb 5 (initState wBase initCleaner)).fetchLog =
        [wBase, wU2] ∧
      crawlStep wBase wExcl wUj wWeb
          (CrawlState.mk [wBase, wU2] [wU2] [] initCleaner [wBase, wU2]) =
        { CrawlState.mk [wBase, wU2] [wU2] [] initCleaner [wBase, wU2] with
          urls_to_crawl := ([] : List (List Char)) } :=
  ⟨(crawl_fetch_once wBase wExcl wUj wWeb initCleaner 5).1.1, by decide,
    (crawl_fetch_once wBase wExcl wUj wWeb initCleaner 5).2
      (CrawlState.mk [wBase, wU2] [wU2] [] initCleaner [wBase, wU2]) wU2 []
      rfl (by decide)⟩

/-- C9: when the fetch of a fresh popped URL fails (transport error or bad
HTTP status), the step only marks the URL visited and records the fetch
attempt: no result row is appended, no links are enqueued (the queue is
just the remaining entries), the cleaner's pattern store is untouched, the
URL is in the visited set afterwards, and any later pop of that URL is
discarded without a retry. -/
theorem crawl_fetch_failure (base : List Char) (excl : List (List Char))
    (uj : List Char → List Char → List Char) (web : List Char → Option Page)
    (s : CrawlState) (current : List Char) (rest : List (List Char))
    (hq : s.urls_to_crawl = current :: rest) (hvis : current ∉ s.visited)
    (hhash : ¬('#' ∈ current)) (hweb : web current = none) :
    crawlStep base excl uj web s =
        { s with
          visited := s.visited ++ [current]
          urls_to_crawl := rest
          fetchLog := s.fetchLog ++ [current] } ∧
      (crawlStep base excl uj web s).results = s.results ∧
      (crawlStep base excl uj web s).cleaner = s.cleaner ∧
      (crawlStep base excl uj web s).urls_to_crawl = rest ∧
      current ∈ (crawlStep base excl uj web s).visited ∧
      ∀ (t : CrawlState) (tail : List (List Char)),
        t.urls_to_crawl = current :: tail → current ∈ t.visited →
          crawlStep base excl uj web t = { t with urls_to_crawl := tail } := by
  have hfresh : ¬(current ∈ s.visited ∨ '#' ∈ current) := by
    intro hor
    rcases hor with h | h
    · exact hvis h
    · exact hhash h
  have heq := crawlStep_fail base excl uj web s current rest hq hfresh hweb
  refine ⟨heq, by rw [heq], by rw [heq], by rw [heq], ?_, ?_⟩
  · rw [heq]
    exact List.mem_append.mpr (Or.inr (List.mem_singleton.mpr rfl))
  · exact fun t tail hq2 hvis2 =>
      crawlStep_discard base excl uj web t current tail hq2 (Or.inl hvis2)

/-- C9 witness: the failure theorem instantiated on a concrete state whose
head URL is not served by the concrete world, plus the discard equation at
a later state that has that URL both queued and visited. -/
theorem crawl_fetch_failure_witness :
    crawlStep wBase wExcl wUj wWeb (CrawlState.mk [] [wU9] [] initCleaner []) =
        { CrawlState.mk [] [wU9] [] initCleaner [] with
          visited := [] ++ [wU9]
          urls_to_crawl := ([] : List (List Char))
          fetchLog := [] ++ [wU9] } ∧
      wU9 ∈ (crawlStep wBase wExcl wUj wWeb (CrawlState.mk [] [wU9] [] initCleaner [])).visited ∧
      crawlStep wBase wExcl wUj wWeb (CrawlState.mk [wU9] [wU9] [] initCleaner [wU9]) =
        { CrawlState.mk [wU9] [wU9] [] initCleaner [wU9] with
          urls_to_crawl := ([] : List (List Char)) } := by
  have h := crawl_fetch_failure wBase wExcl wUj wWeb
    (CrawlState.mk [] [wU9] [] initCleaner []) wU9 [] rfl (by decide) (by decide) (by decide)
  exact ⟨h.1, h.2.2.2.2.1,
    h.2.2.2.2.2 (CrawlState.mk [wU9] [wU9] [] initCleaner [wU9]) [] rfl (by decide)⟩

/-! ### Correctness framework for find_longest_match

A triple `(bi, bj, sz)` is a *valid block* when the `sz` characters of `a`
starting at `bi` coincide with the `sz` characters of `b` starting at
`bj`, both in range.  `csl a b i j` is the length of the longest common
suffix of `a[0..i]` and `b[0..j]` — the quantity the `j2len` dynamic
programme computes. -/

def matchAt (a b : List Char) (i j : Nat) : Prop :=
  i < a.length ∧ j < b.length ∧ a.getD i ' ' = b.getD j ' '

instance (a b : List Char) (i j : Nat) : Decidable (matchAt a b i j) := by
  unfold matchAt
  infer_instance

def ValidB (a b : List Char) (t : Nat × Nat × Nat) : Prop :=
  (a.drop t.1).take t.2.2 = (b.drop t.2.1).take t.2.2 ∧
    t.1 + t.2.2 ≤ a.length ∧ t.2.1 + t.2.2 ≤ b.length

theorem validB_iff (a b : List Char) (bi bj sz : Nat) :
    ValidB a b (bi, bj, sz) ↔
      ((a.drop bi).take sz = (b.drop bj).take sz ∧ bi + sz ≤ a.length ∧ bj + sz ≤ b.length) :=
  Iff.rfl

theorem validB_zero (a b : List Char) : ValidB a b (0, 0, 0) :=
  ⟨rfl, by simp, by simp⟩

theorem getD_eq_getElem' (l : List Char) (n : Nat) (h : n < l.length) :
    l.getD n ' ' = l[n] := by
  simp [List.getD_eq_getElem?_getD, List.getElem?_eq_getElem h]

theorem take_one_drop (l : List Char) (j : Nat) (h : j < l.length) :
    (l.drop j).take 1 = [l.getD j ' '] := by
  rw [List.drop_eq_getElem_cons h, getD_eq_getElem' l j h]
  rfl

theorem validB_single (a b : List Char) (i j : Nat) (h : matchAt a b i j) :
    ValidB a b (i, j, 1) := by
  obtain ⟨hi, hj, heq⟩ := h
  rw [validB_iff]
  refine ⟨?_, by omega, by omega⟩
  rw [take_one_drop a i hi, take_one_drop b j hj, heq]

theorem validB_ext_fwd (a b : List Char) (bi bj sz : Nat)
    (h : ValidB a b (bi, bj, sz)) (hm : matchAt a b (bi + sz) (bj + sz)) :
    ValidB a b (bi, bj, sz + 1) := by
  rw [validB_iff] at h ⊢
  obtain ⟨heq, ha, hb⟩ := h
  obtain ⟨hi, hj, hc⟩ := hm
  refine ⟨?_, by omega, by omega⟩
  rw [List.take_succ, List.take_succ, heq]
  congr 1
  rw [List.getElem?_drop, List.getElem?_drop, List.getElem?_eq_getElem hi,
    List.getElem?_eq_getElem hj]
  rw [getD_eq_getElem' a _ hi, getD_eq_getElem' b _ hj] at hc
  rw [hc]

theorem validB_ext_back (a b : List Char) (bi bj sz : Nat)
    (h : ValidB a b (bi + 1, bj + 1, sz)) (hm : matchAt a b bi bj) :
    ValidB a b (bi, bj, sz + 1) := by
  rw [validB_iff] at h ⊢
  obtain ⟨heq, ha, hb⟩ := h
  obtain ⟨hi, hj, hc⟩ := hm
  refine ⟨?_, by omega, by omega⟩
  rw [List.drop_eq_getElem_cons hi, List.drop_eq_getElem_cons hj, List.take_succ_cons,
    List.take_succ_cons, heq]
  rw [getD_eq_getElem' a _ hi, getD_eq_getElem' b _ hj] at hc
  rw [hc]

theorem validB_shrink (a b : List Char) (p q k : Nat) (h : ValidB a b (p, q, k + 1)) :
    ValidB a b (p, q, k) := by
  rw [validB_iff] at h ⊢
  obtain ⟨heq, ha, hb⟩ := h
  refine ⟨?_, by omega, by omega⟩
  have h2 := congrArg (List.take k) heq
  simpa [List.take_take, Nat.min_eq_left (Nat.le_succ k)] using h2

theorem validB_matchAt (a b : List Char) (p q sz : Nat) (h : ValidB a b (p, q, sz))
    (t : Nat) (ht : t < sz) : matchAt a b (p + t) (q + t) := by
  rw [validB_iff] at h
  obtain ⟨heq, ha, hb⟩ := h
  have hpt : p + t < a.length := by omega
  have hqt : q + t < b.length := by omega
  refine ⟨hpt, hqt, ?_⟩
  have h2 := congrArg (fun l : List Char => l[t]?) heq
  simp only [List.getElem?_take, if_pos ht, List.getElem?_drop] at h2
  rw [List.getElem?_eq_getElem hpt, List.getElem?_eq_getElem hqt] at h2
  rw [getD_eq_getElem' a _ hpt, getD_eq_getElem' b _ hqt]
  exact Option.some.inj h2

def csl (a b : List Char) : Nat → Nat → Nat
  | 0, j => if matchAt a b 0 j then 1 else 0
  | i + 1, 0 => if matchAt a b (i + 1) 0 then 1 else 0
  | i + 1, j + 1 => if matchAt a b (i + 1) (j + 1) then csl a b i j + 1 else 0

theorem csl_pos_matchAt (a b : List Char) (i j : Nat) (h : 0 < csl a b i j) :
    matchAt a b i j := by
  match i, j with
  | 0, j =>
    rw [csl] at h
    by_cases hm : matchAt a b 0 j
    · exact hm
    · rw [if_neg hm] at h
      omega
  | i + 1, 0 =>
    rw [csl] at h
    by_cases hm : matchAt a b (i + 1) 0
    · exact hm
    · rw [if_neg hm] at h
      omega
  | i + 1, j + 1 =>
    rw [csl] at h
    by_cases hm : matchAt a b (i + 1) (j + 1)
    · exact hm
    · rw [if_neg hm] at h
      omega

theorem matchAt_csl_pos (a b : List Char) (i j : Nat) (h : matchAt a b i j) :
    0 < csl a b i j := by
  match i, j with
  | 0, j => rw [csl, if_pos h]; omega
  | i + 1, 0 => rw [csl, if_pos h]; omega
  | i + 1, j + 1 => rw [csl, if_pos h]; omega

theorem csl_succ_succ (a b : List Char) (i j : Nat) (h : matchAt a b (i + 1) (j + 1)) :
    csl a b (i + 1) (j + 1) = csl a b i j + 1 := by
  rw [csl, if_pos h]

theorem csl_le_one_bot (a b : List Char) (i j : Nat) (h : i = 0 ∨ j = 0) :
    csl a b i j ≤ 1 := by
  match i, j with
  | 0, j => rw [csl]; split <;> omega
  | i + 1, 0 => rw [csl]; split <;> omega
  | i + 1, j + 1 => omega

theorem csl_le_left (a b : List Char) : ∀ i j, csl a b i j ≤ i + 1 := by
  intro i
  induction i with
  | zero => intro j; exact csl_le_one_bot a b 0 j (Or.inl rfl)
  | succ i ih =>
    intro j
    match j with
    | 0 => exact Nat.le_trans (csl_le_one_bot a b (i + 1) 0 (Or.inr rfl)) (by omega)
    | j + 1 =>
      rw [csl]
      split
      · exact Nat.succ_le_succ (ih j)
      · omega

theorem csl_le_right (a b : List Char) : ∀ j i, csl a b i j ≤ j + 1 := by
  intro j
  induction j with
  | zero => intro i; exact csl_le_one_bot a b i 0 (Or.inr rfl)
  | succ j ih =>
    intro i
    match i with
    | 0 => exact Nat.le_trans (csl_le_one_bot a b 0 (j + 1) (Or.inl rfl)) (by omega)
    | i + 1 =>
      rw [csl]
      split
      · exact Nat.succ_le_succ (ih i)
      · omega

theorem csl_valid (a b : List Char) :
    ∀ k i j, 0 < k → k ≤ csl a b i j → ValidB a b (i + 1 - k, j + 1 - k, k) := by
  intro k
  induction k with
  | zero => intro i j h; omega
  | succ k ih =>
    intro i j hpos hk
    have hm : matchAt a b i j := csl_pos_matchAt a b i j (by omega)
    cases k with
    | zero =>
      have h1 : i + 1 - 1 = i := by omega
      have h2 : j + 1 - 1 = j := by omega
      rw [h1, h2]
      exact validB_single a b i j hm
    | succ k' =>
      match i, j with
      | 0, j =>
        have := csl_le_one_bot a b 0 j (Or.inl rfl)
        omega
      | i + 1, 0 =>
        have := csl_le_one_bot a b (i + 1) 0 (Or.inr rfl)
        omega
      | i + 1, j + 1 =>
        rw [csl_succ_succ a b i j hm] at hk
        have hv := ih i j (by omega) (by omega)
        have hia : k' + 1 ≤ i + 1 := Nat.le_trans (by omega) (csl_le_left a b i j)
        have hja : k' + 1 ≤ j + 1 := Nat.le_trans (by omega) (csl_le_right a b j i)
        have hstart_a : (i + 1) + 1 - (k' + 2) = i + 1 - (k' + 1) := by omega
        have hstart_b : (j + 1) + 1 - (k' + 2) = j + 1 - (k' + 1) := by omega
        rw [hstart_a, hstart_b]
        have hfa : (i + 1 - (k' + 1)) + (k' + 1) = i + 1 := by omega
        have hfb : (j + 1 - (k' + 1)) + (k' + 1) = j + 1 := by omega
        exact validB_ext_fwd a b _ _ _ hv (by rw [hfa, hfb]; exact hm)

theorem csl_ge_of_block (a b : List Char) :
    ∀ k p q, 0 < k → ValidB a b (p, q, k) → k ≤ csl a b (p + k - 1) (q + k - 1) := by
  intro k
  induction k with
  | zero => intro p q h; omega
  | succ k ih =>
    intro p q hpos hv
    cases k with
    | zero =>
      have hm := validB_matchAt a b p q 1 hv 0 (by omega)
      simp only [Nat.add_zero] at hm
      have := matchAt_csl_pos a b p q hm
      have h1 : p + 1 - 1 = p := by omega
      have h2 : q + 1 - 1 = q := by omega
      rw [h1, h2]
      omega
    | succ k' =>
      have hv' := validB_shrink a b p q (k' + 1) hv
      have ih' := ih p q (by omega) hv'
      have hm := validB_matchAt a b p q (k' + 2) hv (k' + 1) (by omega)
      have hidx1 : p + (k' + 2) - 1 = (p + k') + 1 := by omega
      have hidx2 : q + (k' + 2) - 1 = (q + k') + 1 := by omega
      have hm2 : matchAt a b ((p + k') + 1) ((q + k') + 1) := by
        have e1 : (p + k') + 1 = p + (k' + 1) := by omega
        have e2 : (q + k') + 1 = q + (k' + 1) := by omega
        rw [e1, e2]
        exact hm
      rw [hidx1, hidx2, csl_succ_succ a b (p + k') (q + k') hm2]
      have hidx3 : p + (k' + 1) - 1 = p + k' := by omega
      have hidx4 : q + (k' + 1) - 1 = q + k' := by omega
      rw [hidx3, hidx4] at ih'
      omega

/-! ### The dynamic programme rows compute common-suffix lengths -/

theorem headD_eq_getD_zero (l : List Nat) : l.headD 0 = l.getD 0 0 := by
  cases l <;> rfl

theorem tail_getD (l : List Nat) (n : Nat) : l.tail.getD n 0 = l.getD (n + 1) 0 := by
  cases l <;> rfl

theorem csl_zero_of_not_matchAt (a b : List Char) (i j : Nat) (h : ¬ matchAt a b i j) :
    csl a b i j = 0 := by
  match i, j with
  | 0, j => rw [csl, if_neg h]
  | i + 1, 0 => rw [csl, if_neg h]
  | i + 1, j + 1 => rw [csl, if_neg h]

theorem rowGo_getD (ai : Char) :
    ∀ (bs : List Char) (old : List Nat) (prev : Nat) (t : Nat),
      (rowGo ai prev bs old).getD t 0 =
        if t < bs.length ∧ bs.getD t ' ' = ai then
          (if t = 0 then prev else old.getD (t - 1) 0) + 1
        else 0 := by
  intro bs
  induction bs with
  | nil =>
    intro old prev t
    simp [rowGo]
  | cons bj bs ih =>
    intro old prev t
    cases t with
    | zero =>
      rw [rowGo]
      simp only [List.getD_cons_zero]
      by_cases hc : bj = ai
      · rw [if_pos hc, if_pos ⟨by simp, by simpa using hc⟩]
        simp
      · rw [if_neg hc, if_neg ?_]
        intro hcon
        exact hc (by simpa using hcon.2)
    | succ t =>
      rw [rowGo]
      simp only [List.getD_cons_succ]
      rw [ih old.tail (old.headD 0) t]
      by_cases h1 : t < bs.length ∧ bs.getD t ' ' = ai
      · rw [if_pos h1, if_pos (⟨by simpa using h1.1, h1.2⟩ :
          t + 1 < (bj :: bs).length ∧ bs.getD t ' ' = ai)]
        congr 1
        cases t with
        | zero =>
          rw [if_pos rfl, if_neg (by omega), headD_eq_getD_zero]
        | succ t2 =>
          rw [if_neg (by omega), if_neg (by omega), tail_getD]
          simp
      · rw [if_neg h1, if_neg ?_]
        intro hcon
        exact h1 ⟨by simpa using hcon.1, by simpa using hcon.2⟩

/-- Value of the previous row available when processing row `i`:
before the first row the dict is empty (all reads give `0`). -/
def cslPrev (a b : List Char) : Nat → Nat → Nat
  | 0, _ => 0
  | i + 1, j => csl a b i j

theorem rowLE (a b : List Char) (i : Nat) (ai : Char) (r : List Nat)
    (hi : i < a.length) (hai : a.getD i ' ' = ai)
    (hold : ∀ t, r.getD t 0 ≤ cslPrev a b i t) :
    ∀ t, (rowGo ai 0 b r).getD t 0 ≤ csl a b i t := by
  intro t
  rw [rowGo_getD]
  split
  · rename_i hcond
    have hm : matchAt a b i t := ⟨hi, hcond.1, by rw [hai, hcond.2]⟩
    cases ht : t with
    | zero =>
      rw [if_pos rfl]
      have := matchAt_csl_pos a b i 0 (ht ▸ hm)
      omega
    | succ t2 =>
      rw [if_neg (by omega)]
      simp only [Nat.add_sub_cancel]
      have hprev : r.getD t2 0 ≤ cslPrev a b i t2 := hold t2
      match i with
      | 0 =>
        have := matchAt_csl_pos a b 0 (t2 + 1) (ht ▸ hm)
        have hone := csl_le_one_bot a b 0 (t2 + 1) (Or.inl rfl)
        simp only [cslPrev] at hprev
        omega
      | i2 + 1 =>
        rw [csl_succ_succ a b i2 t2 (ht ▸ hm)]
        simp only [cslPrev] at hprev
        omega
  · exact Nat.zero_le _

theorem rowEQ (a b : List Char) (i : Nat) (ai : Char) (r : List Nat)
    (hi : i < a.length) (hai : a.getD i ' ' = ai)
    (hold : ∀ t, r.getD t 0 = cslPrev a b i t) :
    ∀ t, (rowGo ai 0 b r).getD t 0 = csl a b i t := by
  intro t
  rw [rowGo_getD]
  split
  · rename_i hcond
    have hm : matchAt a b i t := ⟨hi, hcond.1, by rw [hai, hcond.2]⟩
    cases ht : t with
    | zero =>
      rw [if_pos rfl]
      match i with
      | 0 => rw [csl, if_pos (ht ▸ hm)]
      | i2 + 1 => rw [csl, if_pos (ht ▸ hm)]
    | succ t2 =>
      rw [if_neg (by omega)]
      simp only [Nat.add_sub_cancel]
      have hprev : r.getD t2 0 = cslPrev a b i t2 := hold t2
      match i with
      | 0 =>
        rw [csl, if_pos (ht ▸ hm)]
        simp only [cslPrev] at hprev
        omega
      | i2 + 1 =>
        rw [csl_succ_succ a b i2 t2 (ht ▸ hm)]
        simp only [cslPrev] at hprev
        omega
  · rename_i hcond
    rcases Nat.lt_or_ge t b.length with hlt | hge
    · by_cases hbt : b.getD t ' ' = ai
      · exact absurd ⟨hlt, hbt⟩ hcond
      · refine (csl_zero_of_not_matchAt a b i t ?_).symm
        rintro ⟨-, -, heq2⟩
        exact hbt (by rw [← heq2, hai])
    · refine (csl_zero_of_not_matchAt a b i t ?_).symm
      rintro ⟨-, hlt2, -⟩
      omega

theorem csl_zero_of_not_mem (a b : List Char) (i : Nat) (ai : Char)
    (hai : a.getD i ' ' = ai) (hmem : ai ∉ b) (j : Nat) : csl a b i j = 0 := by
  refine csl_zero_of_not_matchAt a b i j ?_
  rintro ⟨-, hj, heq⟩
  refine hmem ?_
  rw [← hai, heq, getD_eq_getElem' b j hj]
  exact List.getElem_mem hj

/-! ### The best-block scan -/

theorem bestScan_mono (i : Nat) :
    ∀ (ks : List Nat) (j : Nat) (best : Nat × Nat × Nat),
      best.2.2 ≤ (bestScan i j ks best).2.2 ∧
        ∀ t, t < ks.length → ks.getD t 0 ≤ (bestScan i j ks best).2.2 := by
  intro ks
  induction ks with
  | nil =>
    intro j best
    exact ⟨Nat.le_refl _, by intro t ht; simp at ht⟩
  | cons k ks ih =>
    intro j best
    rw [bestScan]
    by_cases hlt : best.2.2 < k
    · rw [if_pos hlt]
      have hrec := ih (j + 1) (i + 1 - k, j + 1 - k, k)
      have hsz : k ≤ (bestScan i (j + 1) ks (i + 1 - k, j + 1 - k, k)).2.2 := hrec.1
      refine ⟨by omega, ?_⟩
      intro t ht
      cases t with
      | zero => simpa using hsz
      | succ t2 =>
        simp only [List.getD_cons_succ]
        exact hrec.2 t2 (by simpa using ht)
    · rw [if_neg hlt]
      have hrec := ih (j + 1) best
      refine ⟨hrec.1, ?_⟩
      intro t ht
      cases t with
      | zero =>
        simp only [List.getD_cons_zero]
        omega
      | succ t2 =>
        simp only [List.getD_cons_succ]
        exact hrec.2 t2 (by simpa using ht)

theorem bestScan_valid (a b : List Char) (i : Nat) :
    ∀ (ks : List Nat) (j : Nat) (best : Nat × Nat × Nat),
      ValidB a b best →
      (∀ t, t < ks.length → ks.getD t 0 ≤ csl a b i (j + t)) →
      ValidB a b (bestScan i j ks best) := by
  intro ks
  induction ks with
  | nil => exact fun j best hv _ => hv
  | cons k ks ih =>
    intro j best hv hks
    rw [bestScan]
    by_cases hlt : best.2.2 < k
    · rw [if_pos hlt]
      have hk0 : k ≤ csl a b i j := by simpa using hks 0 (by simp)
      have hnewv : ValidB a b (i + 1 - k, j + 1 - k, k) :=
        csl_valid a b k i j (by omega) hk0
      refine ih (j + 1) _ hnewv ?_
      intro t ht
      have := hks (t + 1) (by simpa using ht)
      simp only [List.getD_cons_succ] at this
      have harith : j + (t + 1) = (j + 1) + t := by omega
      rw [harith] at this
      exact this
    · rw [if_neg hlt]
      refine ih (j + 1) best hv ?_
      intro t ht
      have := hks (t + 1) (by simpa using ht)
      simp only [List.getD_cons_succ] at this
      have harith : j + (t + 1) = (j + 1) + t := by omega
      rw [harith] at this
      exact this

/-! ### The main dynamic-programming loop -/

theorem rowGo_length (ai : Char) :
    ∀ (bs : List Char) (old : List Nat) (prev : Nat),
      (rowGo ai prev bs old).length = bs.length := by
  intro bs
  induction bs with
  | nil => intro old prev; rfl
  | cons bj bs ih =>
    intro old prev
    rw [rowGo]
    simp only [List.length_cons]
    rw [ih]

theorem drop_cons_info (a : List Char) (i : Nat) (ai : Char) (as : List Char)
    (h : a.drop i = ai :: as) :
    i < a.length ∧ a.getD i ' ' = ai ∧ a.drop (i + 1) = as := by
  have hlen : i < a.length := by
    by_contra hge
    rw [List.drop_eq_nil_of_le (by omega)] at h
    exact List.noConfusion h
  have hcons := List.drop_eq_getElem_cons hlen
  rw [hcons] at h
  obtain ⟨h1, h2⟩ := List.cons.inj h
  exact ⟨hlen, by rw [getD_eq_getElem' a i hlen, h1], h2⟩

theorem dpLoop_valid (a b : List Char) :
    ∀ (as : List Char) (i : Nat) (r : List Nat) (best : Nat × Nat × Nat),
      a.drop i = as →
      (∀ t, r.getD t 0 ≤ cslPrev a b i t) →
      ValidB a b best →
      ValidB a b (dpLoop b i as r best) ∧ best.2.2 ≤ (dpLoop b i as r best).2.2 := by
  intro as
  induction as with
  | nil =>
    intro i r best _ _ hbv
    exact ⟨hbv, Nat.le_refl _⟩
  | cons ai as ih =>
    intro i r best hdrop hold hbv
    obtain ⟨hi, hai, hdrop2⟩ := drop_cons_info a i ai as hdrop
    rw [dpLoop]
    split
    · exact ih (i + 1) [] best hdrop2 (fun t => by simp) hbv
    · have hrow := rowLE a b i ai r hi hai hold
      have hscanv := bestScan_valid a b i (rowGo ai 0 b r) 0 best hbv
        (fun t _ => by simpa using hrow t)
      have hscanm := (bestScan_mono i (rowGo ai 0 b r) 0 best).1
      have hrec := ih (i + 1) (rowGo ai 0 b r) (bestScan i 0 (rowGo ai 0 b r) best) hdrop2
        (fun t => by simpa [cslPrev] using hrow t) hscanv
      exact ⟨hrec.1, Nat.le_trans hscanm hrec.2⟩

theorem dpLoop_complete (a b : List Char) (hnp : ∀ c, purged b c = false) :
    ∀ (as : List Char) (i : Nat) (r : List Nat) (best : Nat × Nat × Nat),
      a.drop i = as →
      (∀ t, r.getD t 0 = cslPrev a b i t) →
      (∀ i2 j, i2 < i → csl a b i2 j ≤ best.2.2) →
      ∀ i2 j, i2 < i + as.length → csl a b i2 j ≤ (dpLoop b i as r best).2.2 := by
  intro as
  induction as with
  | nil =>
    intro i r best _ _ hbest i2 j hi2
    rw [dpLoop]
    simp only [List.length_nil, Nat.add_zero] at hi2
    exact hbest i2 j hi2
  | cons ai as ih =>
    intro i r best hdrop hold hbest i2 j hi2
    obtain ⟨hi, hai, hdrop2⟩ := drop_cons_info a i ai as hdrop
    rw [dpLoop]
    split
    · rename_i hguard
      have hmem : ai ∉ b := by
        rcases hguard with hg | hg
        · rw [hnp ai] at hg
          exact absurd hg (by simp)
        · exact hg
      have hzero : ∀ j2, csl a b i j2 = 0 := csl_zero_of_not_mem a b i ai hai hmem
      refine ih (i + 1) [] best hdrop2 ?_ ?_ i2 j ?_
      · intro t
        simp [cslPrev, hzero]
      · intro i3 j3 hi3
        rcases Nat.lt_or_ge i3 i with h3 | h3
        · exact hbest i3 j3 h3
        · have h4 : i3 = i := by omega
          subst h4
          rw [hzero]
          exact Nat.zero_le _
      · simp only [List.length_cons] at hi2
        omega
    · have hrow := rowEQ a b i ai r hi hai hold
      have hmono := bestScan_mono i (rowGo ai 0 b r) 0 best
      refine ih (i + 1) (rowGo ai 0 b r) (bestScan i 0 (rowGo ai 0 b r) best) hdrop2
        ?_ ?_ i2 j ?_
      · intro t
        simp only [cslPrev]
        exact hrow t
      · intro i3 j3 hi3
        rcases Nat.lt_or_ge i3 i with h3 | h3
        · exact Nat.le_trans (hbest i3 j3 h3) hmono.1
        · have h4 : i3 = i := by omega
          subst h4
          rcases Nat.lt_or_ge j3 b.length with hj3 | hj3
          · have hcov := hmono.2 j3 (by rw [rowGo_length]; exact hj3)
            rw [hrow j3] at hcov
            exact hcov
          · rw [csl_zero_of_not_matchAt a b i3 j3 (by rintro ⟨-, hlt2, -⟩; omega)]
            exact Nat.zero_le _
      · simp only [List.length_cons] at hi2
        omega

/-! ### The extension loops -/

theorem extBack_true_spec (a b : List Char) :
    ∀ (bi bj sz : Nat), ValidB a b (bi, bj, sz) →
      ValidB a b (extBack a b (fun _ => true) bi bj sz) ∧
        sz ≤ (extBack a b (fun _ => true) bi bj sz).2.2 := by
  intro bi
  induction bi with
  | zero =>
    intro bj sz hv
    cases bj with
    | zero => exact ⟨hv, Nat.le_refl _⟩
    | succ bj => exact ⟨hv, Nat.le_refl _⟩
  | succ bi ih =>
    intro bj sz hv
    cases bj with
    | zero => exact ⟨hv, Nat.le_refl _⟩
    | succ bj =>
      rw [extBack]
      split
      · rename_i hcond
        have hvv := (validB_iff a b (bi + 1) (bj + 1) sz).mp hv
        have hm : matchAt a b bi bj := ⟨by omega, by omega, hcond.2⟩
        have hv2 : ValidB a b (bi, bj, sz + 1) := validB_ext_back a b bi bj sz hv hm
        have hrec := ih bj (sz + 1) hv2
        exact ⟨hrec.1, by omega⟩
      · exact ⟨hv, Nat.le_refl _⟩

theorem extFwd_true_spec (a b : List Char) (bi bj : Nat) :
    ∀ (fuel sz : Nat), ValidB a b (bi, bj, sz) →
      ValidB a b (bi, bj, extFwd a b (fun _ => true) bi bj fuel sz) ∧
        sz ≤ extFwd a b (fun _ => true) bi bj fuel sz := by
  intro fuel
  induction fuel with
  | zero => intro sz hv; exact ⟨hv, Nat.le_refl _⟩
  | succ fuel ih =>
    intro sz hv
    rw [extFwd]
    split
    · rename_i hcond
      have hm : matchAt a b (bi + sz) (bj + sz) := ⟨hcond.1, hcond.2.1, hcond.2.2.2⟩
      have hv2 := validB_ext_fwd a b bi bj sz hv hm
      have hrec := ih (sz + 1) hv2
      exact ⟨hrec.1, by omega⟩
    · exact ⟨hv, Nat.le_refl _⟩

theorem extBack_false (a b : List Char) : ∀ bi bj sz,
    extBack a b (fun _ => false) bi bj sz = (bi, bj, sz) := by
  intro bi bj sz
  match bi, bj with
  | 0, bj =>
    cases bj with
    | zero => rfl
    | succ bj => rfl
  | bi + 1, 0 => rfl
  | bi + 1, bj + 1 =>
    rw [extBack, if_neg]
    rintro ⟨h, -⟩
    exact Bool.noConfusion h

theorem extFwd_false (a b : List Char) (bi bj : Nat) : ∀ fuel sz,
    extFwd a b (fun _ => false) bi bj fuel sz = sz := by
  intro fuel sz
  cases fuel with
  | zero => rfl
  | succ fuel =>
    rw [extFwd, if_neg]
    rintro ⟨-, -, h, -⟩
    exact Bool.noConfusion h

theorem find_longest_match_spec (a b : List Char) :
    ValidB a b (find_longest_match a b) ∧
      (dpLoop b 0 a [] (0, 0, 0)).2.2 ≤ (find_longest_match a b).2.2 := by
  have hdpv : ValidB a b (dpLoop b 0 a [] (0, 0, 0)) :=
    (dpLoop_valid a b a 0 [] (0, 0, 0) rfl (fun t => by simp) (validB_zero a b)).1
  have h1 := extBack_true_spec a b (dpLoop b 0 a [] (0, 0, 0)).1
    (dpLoop b 0 a [] (0, 0, 0)).2.1 (dpLoop b 0 a [] (0, 0, 0)).2.2 hdpv
  have h2 := extFwd_true_spec a b
    (extBack a b (fun _ => true) (dpLoop b 0 a [] (0, 0, 0)).1
      (dpLoop b 0 a [] (0, 0, 0)).2.1 (dpLoop b 0 a [] (0, 0, 0)).2.2).1
    (extBack a b (fun _ => true) (dpLoop b 0 a [] (0, 0, 0)).1
      (dpLoop b 0 a [] (0, 0, 0)).2.1 (dpLoop b 0 a [] (0, 0, 0)).2.2).2.1
    a.length
    (extBack a b (fun _ => true) (dpLoop b 0 a [] (0, 0, 0)).1
      (dpLoop b 0 a [] (0, 0, 0)).2.1 (dpLoop b 0 a [] (0, 0, 0)).2.2).2.2
    h1.1
  rw [find_longest_match]
  simp only [extBack_false, extFwd_false]
  exact ⟨h2.1, Nat.le_trans h1.2 h2.2⟩

/-! ### The final correctness statement for find_longest_common_substring -/

theorem infix_block (s l : List Char) (h : s <:+: l) :
    ∃ p, p + s.length ≤ l.length ∧ (l.drop p).take s.length = s := by
  obtain ⟨t, u, hl⟩ := h
  refine ⟨t.length, ?_, ?_⟩
  · rw [← hl]
    simp only [List.length_append]
    omega
  · rw [← hl, List.append_assoc, List.drop_left, List.take_left]

set_option maxHeartbeats 1000000 in
/-- C1 (amended): the string returned by `find_longest_common_substring`
always occurs verbatim as a contiguous run in both input strings; and
whenever the second string is shorter than 200 characters — so that
difflib's autojunk heuristic purges nothing — it is a longest common
substring: no longer string occurs contiguously in both.  (For a second
string of length at least 200 the autojunk purge can make the result
shorter than the true longest common substring.) -/
theorem find_longest_common_substring_spec (str1 str2 : List Char) :
    (find_longest_common_substring str1 str2 <:+: str1 ∧
        find_longest_common_substring str1 str2 <:+: str2) ∧
      (str2.length < 200 →
        ∀ s : List Char, s <:+: str1 → s <:+: str2 →
          s.length ≤ (find_longest_common_substring str1 str2).length) := by
  obtain ⟨hval, hsz⟩ := find_longest_match_spec str1 str2
  have hvv := (validB_iff str1 str2 (find_longest_match str1 str2).1
    (find_longest_match str1 str2).2.1 (find_longest_match str1 str2).2.2).mp hval
  obtain ⟨heq, ha, hb⟩ := hvv
  have hlen : (find_longest_common_substring str1 str2).length =
      (find_longest_match str1 str2).2.2 := by
    rw [find_longest_common_substring]
    simp [List.length_take, List.length_drop]
    omega
  constructor
  · constructor
    · rw [find_longest_common_substring]
      exact List.IsInfix.trans (List.IsPrefix.isInfix (List.take_prefix _ _))
        (List.IsSuffix.isInfix (List.drop_suffix _ _))
    · rw [find_longest_common_substring, heq]
      exact List.IsInfix.trans (List.IsPrefix.isInfix (List.take_prefix _ _))
        (List.IsSuffix.isInfix (List.drop_suffix _ _))
  · intro h200 s hs1 hs2
    rcases List.eq_nil_or_concat s with rfl | hne
    · simp
    · have hk : 0 < s.length := by
        rcases hne with ⟨l2, a2, rfl⟩
        simp
      obtain ⟨p, hp1, hp2⟩ := infix_block s str1 hs1
      obtain ⟨q, hq1, hq2⟩ := infix_block s str2 hs2
      have hblock : ValidB str1 str2 (p, q, s.length) := by
        rw [validB_iff]
        exact ⟨by rw [hp2, hq2], hp1, hq1⟩
      have hcsl := csl_ge_of_block str1 str2 s.length p q hk hblock
      have hnp : ∀ c, purged str2 c = false := by
        intro c
        rw [purged]
        have : ¬ 200 ≤ str2.length := by omega
        simp [this]
      have hdp := dpLoop_complete str1 str2 hnp str1 0 [] (0, 0, 0) rfl
        (fun t => by simp [cslPrev]) (by intro i2 j h2; omega)
        (p + s.length - 1) (q + s.length - 1) (by simp; omega)
      rw [hlen]
      omega

set_option maxRecDepth 100000 in
set_option maxHeartbeats 1000000 in
/-- C1 counterexample: with `str1 = "y" + "x"*10` and `str2 = "x"*204`,
difflib's autojunk heuristic (active because `len(str2) = 204 ≥ 200`)
purges the popular character `x` from the index, the dynamic programme
finds nothing, and the extension loops cannot extend an empty match that
does not start at a common prefix — so `find_longest_common_substring`
returns the empty string even though the ten-character string `"x"*10`
occurs contiguously in both inputs.  The claim that the result is always a
longest contiguous common substring is therefore false. -/
theorem find_longest_common_substring_not_longest :
    find_longest_common_substring ('y' :: List.replicate 10 'x')
        (List.replicate 204 'x') = [] ∧
      List.replicate 10 'x' <:+: ('y' :: List.replicate 10 'x') ∧
      List.replicate 10 'x' <:+: List.replicate 204 'x' ∧
      0 < (List.replicate 10 'x').length := by
  refine ⟨by decide, ⟨['y'], [], by decide⟩, ⟨[], List.replicate 194 'x', by decide⟩, by decide⟩

/-- C1 witness: on the short inputs "abcd" and "xbcy" (no autojunk), the
computed match "bc" occurs in both strings and the longest-ness clause
applies to the common substring "bc" itself. -/
theorem find_longest_common_substring_spec_witness :
    find_longest_common_substring ['a', 'b', 'c', 'd'] ['x', 'b', 'c', 'y'] = ['b', 'c'] ∧
      (find_longest_common_substring ['a', 'b', 'c', 'd'] ['x', 'b', 'c', 'y'] <:+:
        ['a', 'b', 'c', 'd']) ∧
      (['b', 'c'] : List Char).length ≤
        (find_longest_common_substring ['a', 'b', 'c', 'd'] ['x', 'b', 'c', 'y']).length :=
  ⟨by decide, (find_longest_common_substring_spec ['a', 'b', 'c', 'd'] ['x', 'b', 'c', 'y']).1.1,
    (find_longest_common_substring_spec ['a', 'b', 'c', 'd'] ['x', 'b', 'c', 'y']).2
      (by decide) ['b', 'c'] (by decide) (by decide)⟩

end Crawler
